import Mathlib

/-!
# Verification of the BigMaac allocator core (bigmaac.c)

A shallow embedding of the data structures and operations of the BigMaac
drop-in allocator: the size-ordered max-heap over free blocks, the
address-ordered block list with eager coalescing, the two-arena allocation
policy, and the interposition shims (malloc / calloc / realloc / free).

Machine `size_t` arithmetic is modelled as `Nat` with explicit wrap-around
modulo `2 ^ 64` where overflow or underflow can occur (the cumulative
used-byte counters and the size-rounding macro).
-/

set_option autoImplicit false

namespace Bigmaac

/-- Word modulus for `size_t` arithmetic (64-bit). -/
def W : Nat := 2 ^ 64

/-- Wrapping `size_t` addition. -/
def wadd (a b : Nat) : Nat := (a + b) % W

/-- Wrapping `size_t` subtraction (two's-complement behaviour of
`a -= b` on an unsigned 64-bit counter). -/
def wsub (a b : Nat) : Nat := (a + (W - b % W)) % W

/-- `SIZE_TO_MULTIPLE(size, multiple)` from bigmaac.c:
`((size % multiple) > 0 ? size + (multiple - size % multiple) : size)`,
performed in `size_t` arithmetic. -/
def roundTo (size multiple : Nat) : Nat :=
  if size % multiple > 0 then wadd size (multiple - size % multiple) else size

/-- Runtime configuration: the two thresholds, the rounding grains and the
reserved ranges of the two arenas (set once in `bigmaac_init`). -/
structure Config where
  minFry : Nat      -- min_size_fry
  minBig : Nat      -- min_size_bigmaac
  fryMult : Nat     -- fry_size_multiple
  pageSize : Nat    -- page_size
  baseFries : Nat   -- base_fries
  baseBig : Nat     -- base_bigmaac
  endBig : Nat      -- end_bigmaac
deriving Repr, DecidableEq

/-- Which underlying allocator serves a request. -/
inductive Route where
  | sys   -- passed through to the real system allocator
  | fry   -- carved from the fry arena
  | big   -- carved from the bigmaac arena
deriving Repr, DecidableEq

/-- Size classification performed by `malloc` (line 649-668) together with
the arena-head selection of `create_chunk` (line 568): requests of size 0 or
at most `min_size_fry` go to the real allocator, larger ones to
`create_chunk`, which picks the bigmaac arena exactly when
`size > min_size_bigmaac`. -/
def mallocRoute (cfg : Config) (size : Nat) : Route :=
  if size = 0 then .sys
  else if size > cfg.minFry then
    (if size > cfg.minBig then .big else .fry)
  else .sys

/-- The size actually carved from an arena: `create_chunk` rounds a bigmaac
request up to a page multiple and a fry request up to `fry_size_multiple`
(lines 571-577). For pass-through requests the size is unchanged. -/
def allocSize (cfg : Config) (size : Nat) : Nat :=
  match mallocRoute cfg size with
  | .sys => size
  | .fry => roundTo size cfg.fryMult
  | .big => roundTo size cfg.pageSize

/-- Rounding really is "round up to the next multiple" as long as the
`size_t` addition cannot wrap. -/
theorem roundTo_spec (s m : Nat) (hm : 0 < m) (hs : s + m ≤ W) :
    s ≤ roundTo s m ∧ roundTo s m % m = 0 ∧ roundTo s m < s + m := by
  unfold roundTo wadd
  by_cases h : s % m > 0
  · have hrm : s % m < m := Nat.mod_lt _ hm
    have hlt : s + (m - s % m) < W := by omega
    simp only [h, if_true, Nat.mod_eq_of_lt hlt]
    refine ⟨by omega, ?_, by omega⟩
    have hd := Nat.div_add_mod s m
    have : s + (m - s % m) = (s / m + 1) * m := by
      rw [Nat.add_mul, Nat.one_mul, Nat.mul_comm]
      omega
    rw [this]
    exact Nat.mul_mod_left _ _
  · simp only [h, if_false]
    have : s % m = 0 := by omega
    exact ⟨Nat.le_refl _, this, by omega⟩

/-- **C4.** When the library is fully loaded, `malloc` routes by size class
with exactly the boundaries of the specification: `size ≤ MIN_FRY` goes to
the system allocator, `MIN_FRY < size ≤ MIN_BIGMAAC` is carved from the fry
arena rounded up to the fry-size-multiple, and `size > MIN_BIGMAAC` is
carved from the bigmaac arena rounded up to a page boundary.  Consequently
the boundary requests `MIN_FRY`, `MIN_FRY+1`, `MIN_BIGMAAC`, `MIN_BIGMAAC+1`
land in the specified classes. -/
theorem malloc_routing (cfg : Config) (size : Nat)
    (hcfg : cfg.minFry ≤ cfg.minBig)
    (hf : 0 < cfg.fryMult) (hp : 0 < cfg.pageSize)
    (hs : size + cfg.fryMult ≤ W ∧ size + cfg.pageSize ≤ W) :
    (size ≤ cfg.minFry → mallocRoute cfg size = .sys ∧ allocSize cfg size = size)
    ∧ (cfg.minFry < size → size ≤ cfg.minBig →
        mallocRoute cfg size = .fry
        ∧ allocSize cfg size = roundTo size cfg.fryMult
        ∧ size ≤ allocSize cfg size ∧ allocSize cfg size % cfg.fryMult = 0)
    ∧ (cfg.minBig < size →
        mallocRoute cfg size = .big
        ∧ allocSize cfg size = roundTo size cfg.pageSize
        ∧ size ≤ allocSize cfg size ∧ allocSize cfg size % cfg.pageSize = 0) := by
  refine ⟨?_, ?_, ?_⟩
  · intro h
    have hroute : mallocRoute cfg size = .sys := by
      unfold mallocRoute
      by_cases h0 : size = 0
      · simp [h0]
      · have : ¬ size > cfg.minFry := by omega
        simp [h0, this]
    exact ⟨hroute, by simp [allocSize, hroute]⟩
  · intro h1 h2
    have hroute : mallocRoute cfg size = .fry := by
      unfold mallocRoute
      have h0 : ¬ size = 0 := by omega
      have : ¬ size > cfg.minBig := by omega
      simp [h0, h1, this]
    have hall : allocSize cfg size = roundTo size cfg.fryMult := by
      simp [allocSize, hroute]
    obtain ⟨hle, hmod, _⟩ := roundTo_spec size cfg.fryMult hf hs.1
    exact ⟨hroute, hall, by rw [hall]; exact hle, by rw [hall]; exact hmod⟩
  · intro h1
    have hroute : mallocRoute cfg size = .big := by
      unfold mallocRoute
      have h0 : ¬ size = 0 := by omega
      have hf1 : size > cfg.minFry := by omega
      simp [h0, hf1, h1]
    have hall : allocSize cfg size = roundTo size cfg.pageSize := by
      simp [allocSize, hroute]
    obtain ⟨hle, hmod, _⟩ := roundTo_spec size cfg.pageSize hp hs.2
    exact ⟨hroute, hall, by rw [hall]; exact hle, by rw [hall]; exact hmod⟩

/-- Concrete configuration used throughout the witnesses: the spec's
scenario parameters `MIN_FRY = 4096`, `MIN_BIGMAAC = 65536`,
`SIZE_FRIES = 1 MiB`, fry multiple 4096, page size 4096, with the fry range
at `[2^20, 2^21)` and the bigmaac range at `[2^21, 3*2^20)`. -/
def cfg0 : Config :=
  { minFry := 4096, minBig := 65536, fryMult := 4096, pageSize := 4096
  , baseFries := 1048576, baseBig := 2097152, endBig := 3145728 }

/-- Witness for the routing theorem at the boundary request
`MIN_BIGMAAC + 1 = 65537`. -/
theorem malloc_routing_witness :
    (65537 ≤ cfg0.minFry → mallocRoute cfg0 65537 = .sys ∧ allocSize cfg0 65537 = 65537)
    ∧ (cfg0.minFry < 65537 → 65537 ≤ cfg0.minBig →
        mallocRoute cfg0 65537 = .fry
        ∧ allocSize cfg0 65537 = roundTo 65537 cfg0.fryMult
        ∧ 65537 ≤ allocSize cfg0 65537 ∧ allocSize cfg0 65537 % cfg0.fryMult = 0)
    ∧ (cfg0.minBig < 65537 →
        mallocRoute cfg0 65537 = .big
        ∧ allocSize cfg0 65537 = roundTo 65537 cfg0.pageSize
        ∧ 65537 ≤ allocSize cfg0 65537 ∧ allocSize cfg0 65537 % cfg0.pageSize = 0) :=
  malloc_routing cfg0 65537 (by decide) (by decide) (by decide) (by decide)

/-! ## Free-block selection heuristic of `heap_pop_split` (lines 334-357)

`pickIdx` receives the sizes of the heap array slots in heap order and the
requested size, and returns the index (0 = root, 1 = left child, 2 = right
child) of the free node the code carves, or `none` when the heap is empty or
the root is too small. -/

/-- The candidate selection of `heap_pop_split`: start from the root, fail
if its size is below the request; take the left child when it also fits;
take the right child when it fits and is strictly smaller than the current
candidate. -/
def pickIdx (sz : List Nat) (s : Nat) : Option Nat :=
  match sz with
  | [] => none
  | root :: _ =>
    if root < s then none
    else
      let i1 := if 1 < sz.length then (if s ≤ sz.getD 1 0 then 1 else 0) else 0
      let i2 :=
        if 2 < sz.length then
          (if s ≤ sz.getD 2 0 ∧ sz.getD 2 0 < sz.getD i1 0 then 2 else i1)
        else i1
      some i2

/-- The max-heap shape property on an array of sizes: every non-root slot is
at most its parent. -/
def maxHeapB (l : List Nat) : Bool :=
  (List.range l.length).all (fun i => i == 0 || decide (l.getD i 0 ≤ l.getD ((i - 1) / 2) 0))

/-- **C5, counterexample.** On the valid max-heap of sizes
`[10, 3, 10]` (root 10, children 3 and 10) a request of 5 qualifies at the
right child (10 ≥ 5), yet the code carves the root: the right child is taken
only when *strictly* smaller than the current candidate, so a right child
whose size equals the root's is skipped. The claim says a non-root block is
chosen whenever a child qualifies. -/
theorem pickIdx_root_despite_child :
    maxHeapB [10, 3, 10] = true
    ∧ 2 < ([10, 3, 10] : List Nat).length ∧ 5 ≤ ([10, 3, 10] : List Nat).getD 2 0
    ∧ pickIdx [10, 3, 10] 5 = some 0 := by
  decide

/-- **C5, amended.** The choice of `heap_pop_split` among root and children:
the chosen block always fits; a non-root block is chosen whenever the left
child qualifies or the right child qualifies with size strictly below the
root's; and the chosen block is never larger than any qualifying child.
(When only the right child qualifies and its size equals the root's, the
root itself is carved.) -/
theorem pickIdx_characterisation (sz : List Nat) (s : Nat) (i : Nat)
    (h : pickIdx sz s = some i) :
    s ≤ sz.getD i 0
    ∧ ((1 < sz.length ∧ s ≤ sz.getD 1 0)
        ∨ (2 < sz.length ∧ s ≤ sz.getD 2 0 ∧ sz.getD 2 0 < sz.getD 0 0) → i ≠ 0)
    ∧ (1 < sz.length → s ≤ sz.getD 1 0 → sz.getD i 0 ≤ sz.getD 1 0)
    ∧ (2 < sz.length → s ≤ sz.getD 2 0 → sz.getD i 0 ≤ sz.getD 2 0) := by
  match sz with
  | [] => simp [pickIdx] at h
  | root :: rest =>
    simp only [pickIdx, List.length_cons, List.getD_cons_succ,
      List.getD_cons_zero, Option.some.injEq] at h ⊢
    split_ifs at h
    all_goals
      first
      | exact Option.noConfusion h
      | (try simp only [Option.some.injEq] at h
         subst h
         simp only [List.getD_cons_succ, List.getD_cons_zero,
           List.length_cons] at *
         refine ⟨?_, ?_, ?_, ?_⟩ <;> intros <;> omega)

/-- Witness for the amended selection theorem: sizes `[10, 8, 6]`, request 7
(the left child qualifies, the right does not): the code picks index 1. -/
theorem pickIdx_characterisation_witness :
    7 ≤ ([10, 8, 6] : List Nat).getD 1 0
    ∧ ((1 < ([10, 8, 6] : List Nat).length ∧ 7 ≤ ([10, 8, 6] : List Nat).getD 1 0)
        ∨ (2 < ([10, 8, 6] : List Nat).length ∧ 7 ≤ ([10, 8, 6] : List Nat).getD 2 0
            ∧ ([10, 8, 6] : List Nat).getD 2 0 < ([10, 8, 6] : List Nat).getD 0 0) → 1 ≠ 0)
    ∧ (1 < ([10, 8, 6] : List Nat).length → 7 ≤ ([10, 8, 6] : List Nat).getD 1 0 →
        ([10, 8, 6] : List Nat).getD 1 0 ≤ ([10, 8, 6] : List Nat).getD 1 0)
    ∧ (2 < ([10, 8, 6] : List Nat).length → 7 ≤ ([10, 8, 6] : List Nat).getD 2 0 →
        ([10, 8, 6] : List Nat).getD 1 0 ≤ ([10, 8, 6] : List Nat).getD 2 0) :=
  pickIdx_characterisation [10, 8, 6] 7 1 (by decide)

/-! ## Load-state machine and the `calloc` shim dispatch (lines 670-697) -/

/-- `enum load_status` of bigmaac.c. -/
inductive LoadStatus where
  | libFail          -- LIBRARY_FAIL = -1
  | notLoaded        -- NOT_LOADED = 0
  | loadingMemFuncs  -- LOADING_MEM_FUNCS = 1
  | loadingLibrary   -- LOADING_LIBRARY = 2
  | loaded           -- LOADED = 3
deriving Repr, DecidableEq

/-- The integer value of each load state, as declared in the C enum. -/
def LoadStatus.toInt : LoadStatus → Int
  | .libFail => -1
  | .notLoaded => 0
  | .loadingMemFuncs => 1
  | .loadingLibrary => 2
  | .loaded => 3

/-- Where the `calloc` shim sends a request. -/
inductive CallocDispatch where
  | earlyNull      -- unconditional NULL before any delegation
  | triggersInit   -- falls into `bigmaac_init()` first (NOT_LOADED path)
  | realCalloc     -- delegated to the real system calloc
  | arena          -- served by `create_chunk`
deriving Repr, DecidableEq

/-- The dispatch structure of the `calloc` shim: first the guard
`load_state > NOT_LOADED && load_state < LOADED` returns NULL; then
`NOT_LOADED` (or an unresolved `real_malloc`) triggers initialisation; a
state other than `LOADED` delegates to the real calloc, as do zero counts or
sizes and requests at most `min_size_fry`; the rest go to the arenas. -/
def callocDispatch (st : LoadStatus) (realMallocSet : Bool) (cfg : Config)
    (count size : Nat) : CallocDispatch :=
  if 0 < st.toInt ∧ st.toInt < 3 then .earlyNull
  else if st = .notLoaded ∨ realMallocSet = false then .triggersInit
  else if st ≠ .loaded then .realCalloc
  else if count = 0 ∨ size = 0 then .realCalloc
  else if size > cfg.minFry then .arena
  else .realCalloc

/-- **C9, counterexample.** In state `LOADING_LIBRARY` — after the real
allocator symbols are resolved — the `calloc` shim still returns NULL
unconditionally (`calloc(1,1)` with everything else well-formed), instead of
delegating as the claim states: the guard covers the whole window
`0 < load_state < 3`, not just `LOADING_MEM_FUNCS`. -/
theorem calloc_null_in_loading_library :
    callocDispatch .loadingLibrary true cfg0 1 1 = .earlyNull
    ∧ LoadStatus.loadingLibrary ≠ .loadingMemFuncs := by
  decide

/-- **C9, amended.** The `calloc` shim returns its unconditional NULL
exactly while the load state is `LOADING_MEM_FUNCS` *or* `LOADING_LIBRARY`
(the whole initialisation window); in every other state — in particular once
`LOADED` — it proceeds to delegation. -/
theorem calloc_earlyNull_iff (st : LoadStatus) (realMallocSet : Bool)
    (cfg : Config) (count size : Nat) :
    callocDispatch st realMallocSet cfg count size = .earlyNull
      ↔ (st = .loadingMemFuncs ∨ st = .loadingLibrary) := by
  cases st <;> simp [callocDispatch, LoadStatus.toInt] <;>
    by_cases hr : realMallocSet = false <;>
      simp [hr] <;>
        by_cases hc : count = 0 ∨ size = 0 <;>
          simp [hc] <;>
            by_cases hs : size > cfg.minFry <;> simp [hs]

/-! ## The address-ordered block list (struct node, lines 82-90)

A block is one contiguous sub-range of an arena: start address, size and
state (`free = true` corresponds to `FREE`, `free = false` to `IN_USE`).
The doubly linked address-ordered list of an arena is modelled as a
`List Block`; the dummy head sentinel (size 0, `IN_USE`) is represented by
the absence of a predecessor, which the operations treat exactly like an
`IN_USE` neighbour, as the code does. -/

structure Block where
  ptr : Nat
  size : Nat
  free : Bool
deriving Repr, DecidableEq

/-- Total number of bytes covered by a list of blocks. -/
def sumSz (l : List Block) : Nat := (l.map Block.size).sum

/-- The list covers exactly the contiguous range starting at `a`:
each block starts where the previous one ended. -/
def contigB : Nat → List Block → Bool
  | _, [] => true
  | a, b :: t => (b.ptr == a) && contigB (a + b.size) t

/-- `in_use` state of the first block (`false` for the empty list, which
stands for the `IN_USE` sentinel / null neighbour). -/
def headFreeB (l : List Block) : Bool := (l.head?.map Block.free).getD false

/-- `in_use` state of the last block. -/
def lastFreeB (l : List Block) : Bool := headFreeB l.reverse

/-- Two neighbouring blocks are never both free. -/
def NoAdjR (a b : Block) : Prop := ¬(a.free = true ∧ b.free = true)

instance : DecidableRel NoAdjR :=
  fun a b => inferInstanceAs (Decidable (¬(a.free = true ∧ b.free = true)))

/-- Eager-coalescing invariant: no two adjacent blocks of the
address-ordered list are both FREE. -/
def NoAdj (l : List Block) : Prop := List.Chain' NoAdjR l

/-- A structurally recursive decision procedure for `NoAdj`, so that
concrete witnesses can be checked by `decide`. -/
def decNoAdj : (l : List Block) → Decidable (NoAdj l)
  | [] => isTrue List.chain'_nil
  | [_] => isTrue (List.chain'_singleton _)
  | a :: b :: t =>
    haveI : Decidable (NoAdj (b :: t)) := decNoAdj (b :: t)
    decidable_of_iff (NoAdjR a b ∧ NoAdj (b :: t)) List.chain'_cons.symm

instance (l : List Block) : Decidable (NoAdj l) := decNoAdj l

/-- The arena list invariants of the specification: the list covers exactly
the reserved range `[base, base+total)` with no gaps, block sizes are
positive, the sizes sum to the arena size, and no two adjacent blocks are
both FREE. -/
def Inv (base total : Nat) (l : List Block) : Prop :=
  contigB base l = true ∧ sumSz l = total ∧ NoAdj l ∧ ∀ b ∈ l, 0 < b.size

instance (base total : Nat) (l : List Block) : Decidable (Inv base total l) :=
  inferInstanceAs
    (Decidable (contigB base l = true ∧ sumSz l = total ∧ NoAdj l ∧ ∀ b ∈ l, 0 < b.size))

theorem sumSz_nil : sumSz [] = 0 := rfl

theorem sumSz_cons (b : Block) (t : List Block) : sumSz (b :: t) = b.size + sumSz t := by
  simp [sumSz]

theorem sumSz_append (l1 l2 : List Block) : sumSz (l1 ++ l2) = sumSz l1 + sumSz l2 := by
  simp [sumSz]

theorem contigB_append (a : Nat) (l1 l2 : List Block) :
    contigB a (l1 ++ l2) = (contigB a l1 && contigB (a + sumSz l1) l2) := by
  induction l1 generalizing a with
  | nil => simp [contigB, sumSz_nil]
  | cons b t ih =>
    simp only [List.cons_append, contigB, sumSz_cons, List.append_eq, ih,
      Nat.add_assoc, Bool.and_assoc]

theorem lastFreeB_reverse (l : List Block) : lastFreeB l.reverse = headFreeB l := by
  simp [lastFreeB, List.reverse_reverse]

theorem headFreeB_cons (b : Block) (t : List Block) : headFreeB (b :: t) = b.free := by
  simp [headFreeB]

/-- The junction condition of `List.chain'_append`, in terms of the
head/last free flags. -/
theorem junction_iff (l1 l2 : List Block) :
    (∀ x ∈ l1.getLast?, ∀ y ∈ l2.head?, NoAdjR x y)
      ↔ (lastFreeB l1 && headFreeB l2) = false := by
  unfold lastFreeB headFreeB
  rw [List.head?_reverse]
  cases hx : l1.getLast? with
  | none => simp [hx]
  | some x =>
    cases hy : l2.head? with
    | none => simp [hx, hy]
    | some y =>
      simp only [hx, hy, Option.map_some, Option.getD_some, Option.mem_def,
        Option.some.injEq, forall_eq]
      cases hfx : x.free <;> cases hfy : y.free <;> simp [NoAdjR, hfx, hfy]

theorem noAdj_append (l1 l2 : List Block) :
    NoAdj (l1 ++ l2)
      ↔ NoAdj l1 ∧ NoAdj l2 ∧ (lastFreeB l1 && headFreeB l2) = false := by
  unfold NoAdj
  rw [List.chain'_append, junction_iff]

/-- Default block used only to satisfy totality of head access on branches
where the list is provably non-empty. -/
def dfl : Block := ⟨0, 0, false⟩

/-- The coalescing free of `heap_free_node` (lines 296-332) acting on the
address-ordered list, presented as a zipper: `rpre` is the reversed prefix
before the freed node `n`, `post` the suffix after it, so the whole list is
`rpre.reverse ++ n :: post`.  Mirrors the code's branch structure: if the
next neighbour exists and is FREE, absorb `n` (and a FREE previous
neighbour) into it; else if the previous neighbour exists and is FREE,
absorb `n` into it; otherwise just flip `n` to FREE. -/
def freeStep (rpre : List Block) (n : Block) (post : List Block) : List Block :=
  if headFreeB post then
    if headFreeB rpre then
      rpre.tail.reverse
        ++ ⟨(rpre.headD dfl).ptr, (rpre.headD dfl).size + n.size + (post.headD dfl).size, true⟩
          :: post.tail
    else
      rpre.reverse ++ ⟨n.ptr, n.size + (post.headD dfl).size, true⟩ :: post.tail
  else if headFreeB rpre then
    rpre.tail.reverse ++ ⟨(rpre.headD dfl).ptr, (rpre.headD dfl).size + n.size, true⟩ :: post
  else
    rpre.reverse ++ ⟨n.ptr, n.size, true⟩ :: post

/-- The splitting allocation of `heap_pop_split` (lines 359-383) acting on
the address-ordered list: the chosen FREE node `n` either matches the
request exactly and is flipped to IN_USE, or is split into a new IN_USE
block of `s` bytes followed by the shrunken FREE remainder. -/
def splitStep (rpre : List Block) (n : Block) (post : List Block) (s : Nat) : List Block :=
  if n.size = s then
    rpre.reverse ++ ⟨n.ptr, n.size, false⟩ :: post
  else
    rpre.reverse ++ ⟨n.ptr, s, false⟩ :: ⟨n.ptr + s, n.size - s, true⟩ :: post

/-- Decomposition of the arena invariant over a three-part split of the
list around a non-empty middle segment. -/
theorem inv_decomp (base total : Nat) (L1 mid L2 : List Block) (hm : mid ≠ [])
    (h : Inv base total (L1 ++ (mid ++ L2))) :
    contigB base L1 = true
    ∧ contigB (base + sumSz L1) mid = true
    ∧ contigB (base + sumSz L1 + sumSz mid) L2 = true
    ∧ sumSz L1 + (sumSz mid + sumSz L2) = total
    ∧ NoAdj L1 ∧ NoAdj mid ∧ NoAdj L2
    ∧ (lastFreeB L1 && headFreeB mid) = false
    ∧ (lastFreeB mid && headFreeB L2) = false
    ∧ (∀ b ∈ L1, 0 < b.size) ∧ (∀ b ∈ mid, 0 < b.size) ∧ (∀ b ∈ L2, 0 < b.size) := by
  obtain ⟨hc, hs, ha, hp⟩ := h
  rw [contigB_append, Bool.and_eq_true, contigB_append, Bool.and_eq_true] at hc
  rw [sumSz_append, sumSz_append] at hs
  rw [noAdj_append, noAdj_append] at ha
  obtain ⟨ha1, ⟨ha2, ha3, hj2⟩, hj1⟩ := ha
  have hhead : headFreeB (mid ++ L2) = headFreeB mid := by
    cases mid with
    | nil => exact absurd rfl hm
    | cons b t => simp [headFreeB]
  refine ⟨hc.1, hc.2.1, hc.2.2, hs, ha1, ha2, ha3,
    by rw [hhead] at hj1; exact hj1, hj2, ?_, ?_, ?_⟩
  · intro b hb
    exact hp b (by simp [hb])
  · intro b hb
    exact hp b (by simp [hb])
  · intro b hb
    exact hp b (by simp [hb])

/-- Recomposition of the arena invariant from a three-part split with a
non-empty middle segment. -/
theorem inv_compose (base total : Nat) (L1 mid2 L2 : List Block) (hm : mid2 ≠ [])
    (c1 : contigB base L1 = true)
    (c2 : contigB (base + sumSz L1) mid2 = true)
    (c3 : contigB (base + sumSz L1 + sumSz mid2) L2 = true)
    (hsum : sumSz L1 + (sumSz mid2 + sumSz L2) = total)
    (a1 : NoAdj L1) (a2 : NoAdj mid2) (a3 : NoAdj L2)
    (j1 : (lastFreeB L1 && headFreeB mid2) = false)
    (j2 : (lastFreeB mid2 && headFreeB L2) = false)
    (p1 : ∀ b ∈ L1, 0 < b.size) (p2 : ∀ b ∈ mid2, 0 < b.size)
    (p3 : ∀ b ∈ L2, 0 < b.size) :
    Inv base total (L1 ++ (mid2 ++ L2)) := by
  refine ⟨?_, ?_, ?_, ?_⟩
  · rw [contigB_append, Bool.and_eq_true, contigB_append, Bool.and_eq_true]
    exact ⟨c1, c2, c3⟩
  · rw [sumSz_append, sumSz_append]
    exact hsum
  · rw [noAdj_append, noAdj_append]
    have hhead : headFreeB (mid2 ++ L2) = headFreeB mid2 := by
      cases mid2 with
      | nil => exact absurd rfl hm
      | cons b t => simp [headFreeB]
    exact ⟨a1, ⟨a2, a3, j2⟩, by rw [hhead]; exact j1⟩
  · intro b hb
    simp only [List.mem_append] at hb
    rcases hb with hb | hb | hb
    · exact p1 b hb
    · exact p2 b hb
    · exact p3 b hb

/-- Contiguity plus positive sizes give a list strictly sorted by start
address. -/
theorem chain_lt_of_contig (l : List Block) :
    ∀ a : Nat, contigB a l = true → (∀ b ∈ l, 0 < b.size) →
      List.Chain' (fun x y : Block => x.ptr < y.ptr) l := by
  induction l with
  | nil => intro a _ _; exact List.chain'_nil
  | cons x t ih =>
    intro a hc hp
    simp only [contigB, Bool.and_eq_true, beq_iff_eq] at hc
    have hchain : List.Chain' (fun x y : Block => x.ptr < y.ptr) t :=
      ih (a + x.size) hc.2 (fun b hb => hp b (by simp [hb]))
    rw [List.chain'_cons']
    refine ⟨?_, hchain⟩
    intro y hy
    cases t with
    | nil => simp at hy
    | cons z t2 =>
      simp only [List.head?_cons, Option.mem_def, Option.some.injEq] at hy
      subst hy
      simp only [contigB, Bool.and_eq_true, beq_iff_eq] at hc
      have hx : 0 < x.size := hp x (by simp)
      omega

/-- **C6.** Both arena operations preserve the address-ordered list
invariants: the list still covers exactly the arena's reserved range with
no gaps (sizes sum to the arena size and blocks are contiguous from the
base), it is strictly sorted by start address, and no two adjacent blocks
are both FREE.  `freeStep` is the coalescing free of an IN_USE node;
`splitStep` is the split-allocate of a FREE node for a request
`0 < s ≤ n.size`. -/
theorem arena_list_invariants (base total s : Nat) (rpre post : List Block) (n : Block)
    (hinv : Inv base total (rpre.reverse ++ n :: post)) :
    (n.free = false → Inv base total (freeStep rpre n post)
        ∧ List.Chain' (fun x y : Block => x.ptr < y.ptr) (freeStep rpre n post))
    ∧ (n.free = true → 0 < s → s ≤ n.size → Inv base total (splitStep rpre n post s)
        ∧ List.Chain' (fun x y : Block => x.ptr < y.ptr) (splitStep rpre n post s)) := by
  have sortedOf : ∀ l : List Block, Inv base total l →
      List.Chain' (fun x y : Block => x.ptr < y.ptr) l :=
    fun l hl => chain_lt_of_contig l base hl.1 hl.2.2.2
  constructor
  · intro hn
    suffices hI : Inv base total (freeStep rpre n post) from ⟨hI, sortedOf _ hI⟩
    by_cases hpost : headFreeB post = true
    · obtain ⟨nx, post2, rfl⟩ : ∃ nx post2, post = nx :: post2 := by
        cases post with
        | nil => simp [headFreeB] at hpost
        | cons a b => exact ⟨a, b, rfl⟩
      have hnx : nx.free = true := by simpa [headFreeB] using hpost
      by_cases hpre : headFreeB rpre = true
      · -- prev FREE, next FREE: merge all three into one block
        obtain ⟨pv, rpre2, rfl⟩ : ∃ pv rpre2, rpre = pv :: rpre2 := by
          cases rpre with
          | nil => simp [headFreeB] at hpre
          | cons a b => exact ⟨a, b, rfl⟩
        have hpv : pv.free = true := by simpa [headFreeB] using hpre
        have hstep : freeStep (pv :: rpre2) n (nx :: post2)
            = rpre2.reverse ++ ([⟨pv.ptr, pv.size + n.size + nx.size, true⟩] ++ post2) := by
          unfold freeStep
          simp [headFreeB_cons, hpv, hnx]
        rw [hstep]
        have heq : (pv :: rpre2).reverse ++ n :: nx :: post2
            = rpre2.reverse ++ ([pv, n, nx] ++ post2) := by simp
        rw [heq] at hinv
        obtain ⟨c1, c2, c3, hsum, a1, a2, a3, j1, j2, p1, p2, p3⟩ :=
          inv_decomp base total _ _ _ (by simp) hinv
        simp only [contigB, Bool.and_eq_true, beq_iff_eq, and_true] at c2
        refine inv_compose base total rpre2.reverse
          [⟨pv.ptr, pv.size + n.size + nx.size, true⟩] post2 (by simp) c1 ?_ ?_ ?_
          a1 (List.chain'_singleton _) a3 ?_ ?_ p1 ?_ p3
        · simp only [contigB, Bool.and_eq_true, beq_iff_eq, and_true]
          exact c2.1
        · have hss : base + sumSz rpre2.reverse
              + sumSz [Block.mk pv.ptr (pv.size + n.size + nx.size) true]
              = base + sumSz rpre2.reverse + sumSz [pv, n, nx] := by
            simp [sumSz]
            try omega
          rw [hss]
          exact c3
        · have hss : sumSz [Block.mk pv.ptr (pv.size + n.size + nx.size) true]
              = sumSz [pv, n, nx] := by
            simp [sumSz]
            try omega
          rw [hss]
          exact hsum
        · have hh : headFreeB [pv, n, nx] = true := by simp [headFreeB, hpv]
          rw [hh, Bool.and_true] at j1
          have hm2 : headFreeB [Block.mk pv.ptr (pv.size + n.size + nx.size) true] = true := by
            simp [headFreeB]
          rw [hm2, Bool.and_true]
          exact j1
        · have hl2 : lastFreeB [pv, n, nx] = true := by simp [lastFreeB, headFreeB, hnx]
          rw [hl2, Bool.true_and] at j2
          have hm2 : lastFreeB [Block.mk pv.ptr (pv.size + n.size + nx.size) true] = true := by
            simp [lastFreeB, headFreeB]
          rw [hm2, Bool.true_and]
          exact j2
        · intro b hb
          simp only [List.mem_singleton] at hb
          subst hb
          have h1 := p2 pv (by simp)
          show 0 < pv.size + n.size + nx.size
          omega
      · -- prev IN_USE (or sentinel), next FREE: absorb n into next
        rw [Bool.not_eq_true] at hpre
        have hstep : freeStep rpre n (nx :: post2)
            = rpre.reverse ++ ([⟨n.ptr, n.size + nx.size, true⟩] ++ post2) := by
          unfold freeStep
          simp [headFreeB_cons, hpre, hnx]
        rw [hstep]
        have heq : rpre.reverse ++ n :: nx :: post2
            = rpre.reverse ++ ([n, nx] ++ post2) := by simp
        rw [heq] at hinv
        obtain ⟨c1, c2, c3, hsum, a1, a2, a3, j1, j2, p1, p2, p3⟩ :=
          inv_decomp base total _ _ _ (by simp) hinv
        simp only [contigB, Bool.and_eq_true, beq_iff_eq, and_true] at c2
        refine inv_compose base total rpre.reverse
          [⟨n.ptr, n.size + nx.size, true⟩] post2 (by simp) c1 ?_ ?_ ?_
          a1 (List.chain'_singleton _) a3 ?_ ?_ p1 ?_ p3
        · simp only [contigB, Bool.and_eq_true, beq_iff_eq, and_true]
          exact c2.1
        · have hss : base + sumSz rpre.reverse + sumSz [Block.mk n.ptr (n.size + nx.size) true]
              = base + sumSz rpre.reverse + sumSz [n, nx] := by
            simp [sumSz]
            try omega
          rw [hss]
          exact c3
        · have hss : sumSz [Block.mk n.ptr (n.size + nx.size) true] = sumSz [n, nx] := by
            simp [sumSz]
            try omega
          rw [hss]
          exact hsum
        · have hm2 : headFreeB [Block.mk n.ptr (n.size + nx.size) true] = true := by
            simp [headFreeB]
          rw [hm2, Bool.and_true, lastFreeB_reverse]
          exact hpre
        · have hl2 : lastFreeB [n, nx] = true := by simp [lastFreeB, headFreeB, hnx]
          rw [hl2, Bool.true_and] at j2
          have hm2 : lastFreeB [Block.mk n.ptr (n.size + nx.size) true] = true := by
            simp [lastFreeB, headFreeB]
          rw [hm2, Bool.true_and]
          exact j2
        · intro b hb
          simp only [List.mem_singleton] at hb
          subst hb
          have h1 := p2 n (by simp)
          show 0 < n.size + nx.size
          omega
    · rw [Bool.not_eq_true] at hpost
      by_cases hpre : headFreeB rpre = true
      · -- prev FREE, next IN_USE (or end): absorb n into previous
        obtain ⟨pv, rpre2, rfl⟩ : ∃ pv rpre2, rpre = pv :: rpre2 := by
          cases rpre with
          | nil => simp [headFreeB] at hpre
          | cons a b => exact ⟨a, b, rfl⟩
        have hpv : pv.free = true := by simpa [headFreeB] using hpre
        have hstep : freeStep (pv :: rpre2) n post
            = rpre2.reverse ++ ([⟨pv.ptr, pv.size + n.size, true⟩] ++ post) := by
          unfold freeStep
          simp [headFreeB_cons, hpv, hpost]
        rw [hstep]
        have heq : (pv :: rpre2).reverse ++ n :: post
            = rpre2.reverse ++ ([pv, n] ++ post) := by simp
        rw [heq] at hinv
        obtain ⟨c1, c2, c3, hsum, a1, a2, a3, j1, j2, p1, p2, p3⟩ :=
          inv_decomp base total _ _ _ (by simp) hinv
        simp only [contigB, Bool.and_eq_true, beq_iff_eq, and_true] at c2
        refine inv_compose base total rpre2.reverse
          [⟨pv.ptr, pv.size + n.size, true⟩] post (by simp) c1 ?_ ?_ ?_
          a1 (List.chain'_singleton _) a3 ?_ ?_ p1 ?_ p3
        · simp only [contigB, Bool.and_eq_true, beq_iff_eq, and_true]
          exact c2.1
        · have hss : base + sumSz rpre2.reverse + sumSz [Block.mk pv.ptr (pv.size + n.size) true]
              = base + sumSz rpre2.reverse + sumSz [pv, n] := by
            simp [sumSz]
            try omega
          rw [hss]
          exact c3
        · have hss : sumSz [Block.mk pv.ptr (pv.size + n.size) true] = sumSz [pv, n] := by
            simp [sumSz]
            try omega
          rw [hss]
          exact hsum
        · have hh : headFreeB [pv, n] = true := by simp [headFreeB, hpv]
          rw [hh, Bool.and_true] at j1
          have hm2 : headFreeB [Block.mk pv.ptr (pv.size + n.size) true] = true := by
            simp [headFreeB]
          rw [hm2, Bool.and_true]
          exact j1
        · have hm2 : lastFreeB [Block.mk pv.ptr (pv.size + n.size) true] = true := by
            simp [lastFreeB, headFreeB]
          rw [hm2, Bool.true_and]
          exact hpost
        · intro b hb
          simp only [List.mem_singleton] at hb
          subst hb
          have h1 := p2 pv (by simp)
          show 0 < pv.size + n.size
          omega
      · -- both neighbours IN_USE: flip n to FREE, no merge
        rw [Bool.not_eq_true] at hpre
        have hstep : freeStep rpre n post
            = rpre.reverse ++ ([⟨n.ptr, n.size, true⟩] ++ post) := by
          unfold freeStep
          simp [hpre, hpost]
        rw [hstep]
        have heq : rpre.reverse ++ n :: post = rpre.reverse ++ ([n] ++ post) := by simp
        rw [heq] at hinv
        obtain ⟨c1, c2, c3, hsum, a1, a2, a3, j1, j2, p1, p2, p3⟩ :=
          inv_decomp base total _ _ _ (by simp) hinv
        simp only [contigB, Bool.and_eq_true, beq_iff_eq, and_true] at c2
        refine inv_compose base total rpre.reverse
          [⟨n.ptr, n.size, true⟩] post (by simp) c1 ?_ ?_ ?_
          a1 (List.chain'_singleton _) a3 ?_ ?_ p1 ?_ p3
        · simp only [contigB, Bool.and_eq_true, beq_iff_eq, and_true]
          exact c2
        · have hss : base + sumSz rpre.reverse + sumSz [Block.mk n.ptr n.size true]
              = base + sumSz rpre.reverse + sumSz [n] := by simp [sumSz]
          rw [hss]
          exact c3
        · have hss : sumSz [Block.mk n.ptr n.size true] = sumSz [n] := by simp [sumSz]
          rw [hss]
          exact hsum
        · have hm2 : headFreeB [Block.mk n.ptr n.size true] = true := by simp [headFreeB]
          rw [hm2, Bool.and_true, lastFreeB_reverse]
          exact hpre
        · have hm2 : lastFreeB [Block.mk n.ptr n.size true] = true := by
            simp [lastFreeB, headFreeB]
          rw [hm2, Bool.true_and]
          exact hpost
        · intro b hb
          simp only [List.mem_singleton] at hb
          subst hb
          show 0 < n.size
          exact p2 n (by simp)
  · intro hfree hs0 hsle
    suffices hI : Inv base total (splitStep rpre n post s) from ⟨hI, sortedOf _ hI⟩
    have heq : rpre.reverse ++ n :: post = rpre.reverse ++ ([n] ++ post) := by simp
    rw [heq] at hinv
    obtain ⟨c1, c2, c3, hsum, a1, a2, a3, j1, j2, p1, p2, p3⟩ :=
      inv_decomp base total _ _ _ (by simp) hinv
    simp only [contigB, Bool.and_eq_true, beq_iff_eq, and_true] at c2
    by_cases hexact : n.size = s
    · -- exact fit: the block is flipped to IN_USE in place
      have hstep : splitStep rpre n post s
          = rpre.reverse ++ ([⟨n.ptr, n.size, false⟩] ++ post) := by
        unfold splitStep
        simp [hexact]
      rw [hstep]
      refine inv_compose base total rpre.reverse
        [⟨n.ptr, n.size, false⟩] post (by simp) c1 ?_ ?_ ?_
        a1 (List.chain'_singleton _) a3 ?_ ?_ p1 ?_ p3
      · simp only [contigB, Bool.and_eq_true, beq_iff_eq, and_true]
        exact c2
      · have hss : base + sumSz rpre.reverse + sumSz [Block.mk n.ptr n.size false]
            = base + sumSz rpre.reverse + sumSz [n] := by simp [sumSz]
        rw [hss]
        exact c3
      · have hss : sumSz [Block.mk n.ptr n.size false] = sumSz [n] := by simp [sumSz]
        rw [hss]
        exact hsum
      · have hm2 : headFreeB [Block.mk n.ptr n.size false] = false := by simp [headFreeB]
        rw [hm2, Bool.and_false]
      · have hm2 : lastFreeB [Block.mk n.ptr n.size false] = false := by
          simp [lastFreeB, headFreeB]
        rw [hm2, Bool.false_and]
      · intro b hb
        simp only [List.mem_singleton] at hb
        subst hb
        show 0 < n.size
        exact p2 n (by simp)
    · -- genuine split: new IN_USE block before the shrunken FREE remainder
      have hstep : splitStep rpre n post s
          = rpre.reverse ++ ([⟨n.ptr, s, false⟩, ⟨n.ptr + s, n.size - s, true⟩] ++ post) := by
        unfold splitStep
        simp [hexact]
      rw [hstep]
      refine inv_compose base total rpre.reverse
        [⟨n.ptr, s, false⟩, ⟨n.ptr + s, n.size - s, true⟩] post (by simp) c1 ?_ ?_ ?_
        a1 ?_ a3 ?_ ?_ p1 ?_ p3
      · simp only [contigB, Bool.and_eq_true, beq_iff_eq, and_true]
        exact ⟨c2, by rw [c2]⟩
      · have hss : base + sumSz rpre.reverse
            + sumSz [Block.mk n.ptr s false, Block.mk (n.ptr + s) (n.size - s) true]
            = base + sumSz rpre.reverse + sumSz [n] := by
          simp [sumSz]
          omega
        rw [hss]
        exact c3
      · have hss : sumSz [Block.mk n.ptr s false, Block.mk (n.ptr + s) (n.size - s) true]
            = sumSz [n] := by
          simp [sumSz]
          omega
        rw [hss]
        exact hsum
      · unfold NoAdj
        rw [List.chain'_cons]
        exact ⟨by simp [NoAdjR], List.chain'_singleton _⟩
      · have hm2 : headFreeB [Block.mk n.ptr s false, Block.mk (n.ptr + s) (n.size - s) true]
            = false := by simp [headFreeB]
        rw [hm2, Bool.and_false]
      · have hl1 : lastFreeB [n] = true := by simp [lastFreeB, headFreeB, hfree]
        rw [hl1, Bool.true_and] at j2
        have hm2 : lastFreeB [Block.mk n.ptr s false, Block.mk (n.ptr + s) (n.size - s) true]
            = true := by simp [lastFreeB, headFreeB]
        rw [hm2, Bool.true_and]
        exact j2
      · intro b hb
        simp only [List.mem_cons, List.mem_singleton, List.not_mem_nil, or_false] at hb
        rcases hb with hb | hb
        · subst hb
          show 0 < s
          exact hs0
        · subst hb
          show 0 < n.size - s
          omega

/-- Witness for the list-invariant theorem: the three-block fry list
`[(0,10,FREE), (10,8,IN_USE), (18,12,IN_USE)]` over the range `[0,30)`,
freeing the middle block (which coalesces with the FREE previous block)
and splitting the first block with a request of 5. -/
theorem arena_list_invariants_witness :
    ((⟨10, 8, false⟩ : Block).free = false →
        Inv 0 30 (freeStep [⟨0, 10, true⟩] ⟨10, 8, false⟩ [⟨18, 12, false⟩])
        ∧ List.Chain' (fun x y : Block => x.ptr < y.ptr)
            (freeStep [⟨0, 10, true⟩] ⟨10, 8, false⟩ [⟨18, 12, false⟩]))
    ∧ ((⟨10, 8, false⟩ : Block).free = true → 0 < 5 → 5 ≤ (⟨10, 8, false⟩ : Block).size →
        Inv 0 30 (splitStep [⟨0, 10, true⟩] ⟨10, 8, false⟩ [⟨18, 12, false⟩] 5)
        ∧ List.Chain' (fun x y : Block => x.ptr < y.ptr)
            (splitStep [⟨0, 10, true⟩] ⟨10, 8, false⟩ [⟨18, 12, false⟩] 5)) :=
  arena_list_invariants 0 30 5 [⟨0, 10, true⟩] [⟨18, 12, false⟩] ⟨10, 8, false⟩
    (by decide)

/-! ## The size-ordered heap with index bookkeeping (lines 229-294)

The heap array `node_array` is modelled as a list of node identifiers
(`slots`), the per-node `heap_idx` field as a function `hidx` from node
identifier to `Int` (`-1` is the not-in-heap sentinel), and node sizes as a
fixed function `sz` (heap operations never change a node's size). -/

structure HeapSt where
  slots : List Nat
  hidx : Nat → Int

/-- `SWAP_NODES(na, idx_a, idx_b)` (lines 58-65): first both nodes'
recorded indices are exchanged, then the array entries are swapped. -/
def swapN (h : HeapSt) (a b : Nat) : HeapSt :=
  let va := h.slots.getD a 0
  let vb := h.slots.getD b 0
  { slots := (h.slots.set a vb).set b va
  , hidx := fun id => if id = vb then (a : Int) else if id = va then (b : Int) else h.hidx id }

/-- `heapify_up` (lines 245-256), with explicit fuel (the index strictly
decreases, so `idx + 1` steps always suffice; exhausted fuel returns the
state unchanged).  `LARGER_GAP(h, idx, parent) != parent` holds exactly when
the node at `idx` is strictly larger than its parent. -/
def hUp (sz : Nat → Nat) : Nat → HeapSt → Nat → HeapSt
  | 0, h, _ => h
  | fuel + 1, h, idx =>
    if idx = 0 then h
    else if sz (h.slots.getD ((idx - 1) / 2) 0) < sz (h.slots.getD idx 0) then
      hUp sz fuel (swapN h idx ((idx - 1) / 2)) ((idx - 1) / 2)
    else h

/-- The `largest_idx` computed by one step of `heapify_down`
(lines 258-269): the left and right children are `(idx+1)*2 - 1` and
`(idx+1)*2`; `LARGER_GAP(h, a, b)` returns `a` only when `a`'s size is
strictly larger, so ties move to the child. -/
def downLeft (sz : Nat → Nat) (h : HeapSt) (idx : Nat) : Nat :=
  if 2 * idx + 1 < h.slots.length then
    (if sz (h.slots.getD idx 0) > sz (h.slots.getD (2 * idx + 1) 0) then idx
      else 2 * idx + 1)
  else idx

def downTarget (sz : Nat → Nat) (h : HeapSt) (idx : Nat) : Nat :=
  if 2 * idx + 2 < h.slots.length then
    (if sz (h.slots.getD (downLeft sz h idx) 0) > sz (h.slots.getD (2 * idx + 2) 0) then
      downLeft sz h idx
      else 2 * idx + 2)
  else downLeft sz h idx

/-- `heapify_down` (lines 258-274), with explicit fuel: if the largest of
the node and its children is not the node, swap and recurse there. -/
def hDown (sz : Nat → Nat) : Nat → HeapSt → Nat → HeapSt
  | 0, h, _ => h
  | fuel + 1, h, idx =>
    if downTarget sz h idx ≠ idx then
      hDown sz fuel (swapN h idx (downTarget sz h idx)) (downTarget sz h idx)
    else h

/-- `heap_insert` (lines 276-294): append the node at the end, record its
index, sift up.  (The geometric growth of the backing array is implicit in
the list representation.) -/
def hpInsert (sz : Nat → Nat) (h : HeapSt) (n : Nat) : HeapSt :=
  hUp sz (h.slots.length + 1)
    ⟨h.slots ++ [n], fun id => if id = n then (h.slots.length : Int) else h.hidx id⟩
    h.slots.length

/-- `heap_remove_idx` (lines 229-243).  With one occupant the heap is
emptied and the occupant's index set to `-1`.  Otherwise the code writes
`-1` into the removed node's index, then moves the last slot into the hole
(updating that node's index — when the removed slot *is* the last slot this
overwrites the just-written `-1`), shrinks, and sifts down. -/
def hpRemoveIdx (sz : Nat → Nat) (h : HeapSt) (idx : Nat) : HeapSt :=
  if h.slots.length = 1 then
    ⟨[], fun id => if id = h.slots.getD 0 0 then -1 else h.hidx id⟩
  else
    hDown sz h.slots.length
      ⟨(h.slots.set idx (h.slots.getD (h.slots.length - 1) 0)).dropLast
      , fun id => if id = h.slots.getD (h.slots.length - 1) 0 then (idx : Int)
                  else if id = h.slots.getD idx 0 then -1 else h.hidx id⟩
      idx

/-- The slots hold pairwise distinct node identifiers. -/
def InjSlots (l : List Nat) : Prop :=
  ∀ i, i < l.length → ∀ j, j < l.length → l.getD i 0 = l.getD j 0 → i = j

instance (l : List Nat) : Decidable (InjSlots l) :=
  inferInstanceAs
    (Decidable (∀ i, i < l.length → ∀ j, j < l.length → l.getD i 0 = l.getD j 0 → i = j))

/-- The index bookkeeping invariant: slots are distinct and every in-heap
node's recorded index points back to its slot
(`heap.array[b.heap_index] == b`). -/
def InvH (h : HeapSt) : Prop :=
  InjSlots h.slots ∧ ∀ i, i < h.slots.length → h.hidx (h.slots.getD i 0) = (i : Int)

instance (h : HeapSt) : Decidable (InvH h) :=
  inferInstanceAs
    (Decidable (InjSlots h.slots
      ∧ ∀ i, i < h.slots.length → h.hidx (h.slots.getD i 0) = (i : Int)))

/-- A node identifier that occupies no slot. -/
def NotIn (x : Nat) (h : HeapSt) : Prop :=
  ∀ i, i < h.slots.length → h.slots.getD i 0 ≠ x

theorem getD_set' (l : List Nat) (i j v : Nat) :
    (l.set i v).getD j 0 = if i = j ∧ j < l.length then v else l.getD j 0 := by
  simp only [List.getD_eq_getElem?_getD, List.getElem?_set]
  by_cases hij : i = j
  · subst hij
    by_cases hl : i < l.length
    · simp [hl]
    · simp only [hl, and_false, if_true, if_false, Option.getD_none]
      rw [List.getElem?_eq_none (by omega)]
      simp
  · simp [hij]

theorem getD_dropLast (l : List Nat) (j : Nat) (h : j < l.length - 1) :
    l.dropLast.getD j 0 = l.getD j 0 := by
  simp only [List.getD_eq_getElem?_getD, List.getElem?_dropLast, h, if_true]

theorem getD_append_left (l l2 : List Nat) (j : Nat) (h : j < l.length) :
    (l ++ l2).getD j 0 = l.getD j 0 :=
  List.getD_append l l2 0 j h

theorem getD_append_last (l : List Nat) (n : Nat) :
    (l ++ [n]).getD l.length 0 = n := by
  simp [List.getD_eq_getElem?_getD, List.getElem?_append]

theorem swapN_slots_getD (h : HeapSt) (a b : Nat) (ha : a < h.slots.length)
    (hb : b < h.slots.length) (j : Nat) (hj : j < h.slots.length) :
    (swapN h a b).slots.getD j 0
      = h.slots.getD (if j = b then a else if j = a then b else j) 0 := by
  unfold swapN
  simp only []
  rw [getD_set', List.length_set, getD_set']
  split_ifs <;> first | rfl | omega

theorem swapN_length (h : HeapSt) (a b : Nat) :
    (swapN h a b).slots.length = h.slots.length := by
  simp [swapN, List.length_set]

theorem swap_preserve (h : HeapSt) (a b : Nat) (ha : a < h.slots.length)
    (hb : b < h.slots.length) (hab : a ≠ b) (hinv : InvH h) :
    InvH (swapN h a b)
    ∧ (∀ x, NotIn x h → NotIn x (swapN h a b) ∧ (swapN h a b).hidx x = h.hidx x) := by
  obtain ⟨inj, hix⟩ := hinv
  have hlen := swapN_length h a b
  have hchar := swapN_slots_getD h a b ha hb
  refine ⟨⟨?_, ?_⟩, ?_⟩
  · intro i hi j hj heq
    rw [hlen] at hi hj
    rw [hchar i hi, hchar j hj] at heq
    have hσi : (if i = b then a else if i = a then b else i) < h.slots.length := by
      split_ifs <;> omega
    have hσj : (if j = b then a else if j = a then b else j) < h.slots.length := by
      split_ifs <;> omega
    have := inj _ hσi _ hσj heq
    split_ifs at this <;> omega
  · intro i hi
    rw [hlen] at hi
    rw [hchar i hi]
    simp only [swapN]
    by_cases hib : i = b
    · rw [if_pos hib]
      have hne : h.slots.getD a 0 ≠ h.slots.getD b 0 :=
        fun hcontra => hab (inj a ha b hb hcontra)
      rw [if_neg hne, if_pos rfl, hib]
    · by_cases hia : i = a
      · rw [if_neg hib, if_pos hia, if_pos rfl, hia]
      · rw [if_neg hib, if_neg hia]
        have h1 : h.slots.getD i 0 ≠ h.slots.getD b 0 :=
          fun hcontra => hib (inj i hi b hb hcontra)
        have h2 : h.slots.getD i 0 ≠ h.slots.getD a 0 :=
          fun hcontra => hia (inj i hi a ha hcontra)
        rw [if_neg h1, if_neg h2]
        exact hix i hi
  · intro x hx
    constructor
    · intro i hi
      rw [hlen] at hi
      rw [hchar i hi]
      have hσ : (if i = b then a else if i = a then b else i) < h.slots.length := by
        split_ifs <;> omega
      exact hx _ hσ
    · simp only [swapN]
      have h1 : h.slots.getD b 0 ≠ x := hx b hb
      have h2 : h.slots.getD a 0 ≠ x := hx a ha
      rw [if_neg (Ne.symm h1), if_neg (Ne.symm h2)]

/-- A step target different from the index itself implies both indices are
inside the heap. -/
theorem downTarget_lt (sz : Nat → Nat) (h : HeapSt) (idx : Nat)
    (hne : downTarget sz h idx ≠ idx) :
    downTarget sz h idx < h.slots.length ∧ idx < h.slots.length := by
  unfold downTarget downLeft at hne ⊢
  split_ifs at hne ⊢ <;> omega

theorem downTarget_out (sz : Nat → Nat) (h : HeapSt) (idx : Nat)
    (hout : h.slots.length ≤ idx) : downTarget sz h idx = idx := by
  unfold downTarget downLeft
  have hl : ¬ 2 * idx + 1 < h.slots.length := by omega
  have hr : ¬ 2 * idx + 2 < h.slots.length := by omega
  simp [hl, hr]

/-- `heapify_down` is the identity when the index is outside the heap. -/
theorem hDown_out (sz : Nat → Nat) (fuel : Nat) (h : HeapSt) (idx : Nat)
    (hout : h.slots.length ≤ idx) : hDown sz fuel h idx = h := by
  cases fuel with
  | zero => rfl
  | succ fuel =>
    unfold hDown
    rw [downTarget_out sz h idx hout]
    simp

/-- Sift-up preserves the bookkeeping invariant, the slot length, and the
bookkeeping of identifiers outside the heap. -/
theorem hUp_preserve (sz : Nat → Nat) :
    ∀ (fuel : Nat) (h : HeapSt) (idx : Nat), InvH h → idx < h.slots.length →
      InvH (hUp sz fuel h idx)
      ∧ (hUp sz fuel h idx).slots.length = h.slots.length
      ∧ (∀ x, NotIn x h → NotIn x (hUp sz fuel h idx)
          ∧ (hUp sz fuel h idx).hidx x = h.hidx x) := by
  intro fuel
  induction fuel with
  | zero =>
    intro h idx hinv _
    exact ⟨hinv, rfl, fun x hx => ⟨hx, rfl⟩⟩
  | succ fuel ih =>
    intro h idx hinv hidxlt
    unfold hUp
    by_cases h0 : idx = 0
    · rw [if_pos h0]
      exact ⟨hinv, rfl, fun x hx => ⟨hx, rfl⟩⟩
    · rw [if_neg h0]
      by_cases hcmp : sz (h.slots.getD ((idx - 1) / 2) 0) < sz (h.slots.getD idx 0)
      · rw [if_pos hcmp]
        have hp : (idx - 1) / 2 < h.slots.length := by omega
        have hab : idx ≠ (idx - 1) / 2 := by omega
        obtain ⟨hinv2, hmem2⟩ := swap_preserve h idx ((idx - 1) / 2) hidxlt hp hab hinv
        have hlt2 : (idx - 1) / 2 < (swapN h idx ((idx - 1) / 2)).slots.length := by
          rw [swapN_length]
          omega
        obtain ⟨hI, hL, hM⟩ := ih (swapN h idx ((idx - 1) / 2)) ((idx - 1) / 2) hinv2 hlt2
        refine ⟨hI, by rw [hL, swapN_length], ?_⟩
        intro x hx
        obtain ⟨hx2, he2⟩ := hmem2 x hx
        obtain ⟨hx3, he3⟩ := hM x hx2
        exact ⟨hx3, by rw [he3, he2]⟩
      · rw [if_neg hcmp]
        exact ⟨hinv, rfl, fun x hx => ⟨hx, rfl⟩⟩

/-- Sift-down preserves the bookkeeping invariant, the slot length, and the
bookkeeping of identifiers outside the heap. -/
theorem hDown_preserve (sz : Nat → Nat) :
    ∀ (fuel : Nat) (h : HeapSt) (idx : Nat), InvH h →
      InvH (hDown sz fuel h idx)
      ∧ (hDown sz fuel h idx).slots.length = h.slots.length
      ∧ (∀ x, NotIn x h → NotIn x (hDown sz fuel h idx)
          ∧ (hDown sz fuel h idx).hidx x = h.hidx x) := by
  intro fuel
  induction fuel with
  | zero =>
    intro h idx hinv
    exact ⟨hinv, rfl, fun x hx => ⟨hx, rfl⟩⟩
  | succ fuel ih =>
    intro h idx hinv
    unfold hDown
    by_cases hne : downTarget sz h idx ≠ idx
    · rw [if_pos hne]
      obtain ⟨h1, h2⟩ := downTarget_lt sz h idx hne
      obtain ⟨hinv2, hmem2⟩ := swap_preserve h idx _ h2 h1 (Ne.symm hne) hinv
      obtain ⟨hI, hL, hM⟩ :=
        ih (swapN h idx (downTarget sz h idx)) (downTarget sz h idx) hinv2
      refine ⟨hI, by rw [hL, swapN_length], ?_⟩
      intro x hx
      obtain ⟨hx2, he2⟩ := hmem2 x hx
      obtain ⟨hx3, he3⟩ := hM x hx2
      exact ⟨hx3, by rw [he3, he2]⟩
    · rw [if_neg hne]
      exact ⟨hinv, rfl, fun x hx => ⟨hx, rfl⟩⟩

theorem hpInsert_preserve (sz : Nat → Nat) (h : HeapSt) (n : Nat)
    (hinv : InvH h) (hn : h.hidx n = -1) : InvH (hpInsert sz h n) := by
  have hnotin : NotIn n h := by
    intro i hi hc
    have hfix := hinv.2 i hi
    rw [hc, hn] at hfix
    omega
  have hinv2 : InvH ⟨h.slots ++ [n],
      fun id => if id = n then (h.slots.length : Int) else h.hidx id⟩ := by
    constructor
    · intro i hi j hj heq
      simp only [List.length_append, List.length_cons, List.length_nil] at hi hj
      by_cases hi1 : i < h.slots.length
      · by_cases hj1 : j < h.slots.length
        · rw [getD_append_left _ _ _ hi1, getD_append_left _ _ _ hj1] at heq
          exact hinv.1 i hi1 j hj1 heq
        · have hj2 : j = h.slots.length := by omega
          subst hj2
          rw [getD_append_left _ _ _ hi1, getD_append_last] at heq
          exact absurd heq (hnotin i hi1)
      · have hi2 : i = h.slots.length := by omega
        subst hi2
        by_cases hj1 : j < h.slots.length
        · rw [getD_append_last, getD_append_left _ _ _ hj1] at heq
          exact absurd heq.symm (hnotin j hj1)
        · omega
    · intro i hi
      simp only [List.length_append, List.length_cons, List.length_nil] at hi
      by_cases hi1 : i < h.slots.length
      · rw [getD_append_left _ _ _ hi1]
        show (if h.slots.getD i 0 = n then (h.slots.length : Int) else _) = (i : Int)
        rw [if_neg (hnotin i hi1)]
        exact hinv.2 i hi1
      · have hi2 : i = h.slots.length := by omega
        subst hi2
        rw [getD_append_last]
        show (if n = n then (h.slots.length : Int) else _) = _
        rw [if_pos rfl]
  unfold hpInsert
  exact (hUp_preserve sz (h.slots.length + 1) _ h.slots.length hinv2 (by simp)).1

theorem hpRemoveIdx_spec (sz : Nat → Nat) (h : HeapSt) (idx : Nat)
    (hinv : InvH h) (hidxlt : idx < h.slots.length) :
    InvH (hpRemoveIdx sz h idx)
    ∧ (h.slots.length = 1 → (hpRemoveIdx sz h idx).hidx (h.slots.getD idx 0) = -1)
    ∧ (idx + 1 < h.slots.length → (hpRemoveIdx sz h idx).hidx (h.slots.getD idx 0) = -1)
    ∧ (1 < h.slots.length → idx + 1 = h.slots.length →
        (hpRemoveIdx sz h idx).hidx (h.slots.getD idx 0) = (idx : Int)) := by
  by_cases h1 : h.slots.length = 1
  · unfold hpRemoveIdx
    rw [if_pos h1]
    have hidx0 : idx = 0 := by omega
    subst hidx0
    refine ⟨⟨?_, ?_⟩, ?_, ?_, ?_⟩
    · intro i hi
      simp at hi
    · intro i hi
      simp at hi
    · intro _
      show (if h.slots.getD 0 0 = h.slots.getD 0 0 then (-1 : Int) else _) = -1
      rw [if_pos rfl]
    · intro hc
      omega
    · intro hc _
      omega
  · unfold hpRemoveIdx
    rw [if_neg h1]
    have hlen2 : 2 ≤ h.slots.length := by omega
    have hchar2 : ∀ j, j < h.slots.length - 1 →
        ((h.slots.set idx (h.slots.getD (h.slots.length - 1) 0)).dropLast).getD j 0
          = if idx = j then h.slots.getD (h.slots.length - 1) 0 else h.slots.getD j 0 := by
      intro j hj
      rw [getD_dropLast _ _ (by rw [List.length_set]; omega), getD_set']
      split_ifs <;> first | rfl | omega
    have hlen3 : ((h.slots.set idx (h.slots.getD (h.slots.length - 1) 0)).dropLast).length
        = h.slots.length - 1 := by
      rw [List.length_dropLast, List.length_set]
    by_cases hlast : idx + 1 = h.slots.length
    · -- removing the last occupied slot of a heap with several occupants:
      -- the node is moved onto itself and its index is NOT left at -1
      have hrem : h.slots.getD idx 0 = h.slots.getD (h.slots.length - 1) 0 := by
        have : idx = h.slots.length - 1 := by omega
        rw [this]
      have hinv2 : InvH ⟨(h.slots.set idx (h.slots.getD (h.slots.length - 1) 0)).dropLast,
          fun id => if id = h.slots.getD (h.slots.length - 1) 0 then (idx : Int)
                    else if id = h.slots.getD idx 0 then -1 else h.hidx id⟩ := by
        constructor
        · intro i hi j hj heq
          rw [hlen3] at hi hj
          rw [hchar2 i hi, hchar2 j hj] at heq
          rw [if_neg (by omega), if_neg (by omega)] at heq
          exact hinv.1 i (by omega) j (by omega) heq
        · intro i hi
          rw [hlen3] at hi
          rw [hchar2 i hi, if_neg (by omega)]
          show (if h.slots.getD i 0 = h.slots.getD (h.slots.length - 1) 0 then (idx : Int)
                else if h.slots.getD i 0 = h.slots.getD idx 0 then -1
                else h.hidx (h.slots.getD i 0)) = (i : Int)
          have hne1 : h.slots.getD i 0 ≠ h.slots.getD (h.slots.length - 1) 0 := by
            intro hc
            have := hinv.1 i (by omega) (h.slots.length - 1) (by omega) hc
            omega
          have hne2 : h.slots.getD i 0 ≠ h.slots.getD idx 0 := by
            intro hc
            have := hinv.1 i (by omega) idx (by omega) hc
            omega
          rw [if_neg hne1, if_neg hne2]
          exact hinv.2 i (by omega)
      have hout : (⟨(h.slots.set idx (h.slots.getD (h.slots.length - 1) 0)).dropLast,
          fun id => if id = h.slots.getD (h.slots.length - 1) 0 then (idx : Int)
                    else if id = h.slots.getD idx 0 then -1 else h.hidx id⟩
            : HeapSt).slots.length ≤ idx := by
        show ((h.slots.set idx (h.slots.getD (h.slots.length - 1) 0)).dropLast).length ≤ idx
        rw [hlen3]
        omega
      rw [hDown_out sz _ _ _ hout]
      refine ⟨hinv2, ?_, ?_, ?_⟩
      · intro hc
        exact absurd hc h1
      · intro hc
        omega
      · intro _ _
        show (if h.slots.getD idx 0 = h.slots.getD (h.slots.length - 1) 0 then (idx : Int)
              else _) = (idx : Int)
        rw [if_pos hrem]
    · -- removing a non-final slot: the removed node's index is left at -1
      have hltm : idx < h.slots.length - 1 := by omega
      have hremne : h.slots.getD idx 0 ≠ h.slots.getD (h.slots.length - 1) 0 := by
        intro hc
        have := hinv.1 idx hidxlt (h.slots.length - 1) (by omega) hc
        omega
      have hinv2 : InvH ⟨(h.slots.set idx (h.slots.getD (h.slots.length - 1) 0)).dropLast,
          fun id => if id = h.slots.getD (h.slots.length - 1) 0 then (idx : Int)
                    else if id = h.slots.getD idx 0 then -1 else h.hidx id⟩ := by
        constructor
        · intro i hi j hj heq
          rw [hlen3] at hi hj
          rw [hchar2 i hi, hchar2 j hj] at heq
          by_cases hii : idx = i
          · by_cases hjj : idx = j
            · omega
            · rw [if_pos hii, if_neg hjj] at heq
              have := hinv.1 (h.slots.length - 1) (by omega) j (by omega) heq
              omega
          · by_cases hjj : idx = j
            · rw [if_neg hii, if_pos hjj] at heq
              have := hinv.1 i (by omega) (h.slots.length - 1) (by omega) heq
              omega
            · rw [if_neg hii, if_neg hjj] at heq
              exact hinv.1 i (by omega) j (by omega) heq
        · intro i hi
          rw [hlen3] at hi
          rw [hchar2 i hi]
          by_cases hii : idx = i
          · rw [if_pos hii]
            show (if h.slots.getD (h.slots.length - 1) 0
                    = h.slots.getD (h.slots.length - 1) 0 then (idx : Int) else _) = (i : Int)
            rw [if_pos rfl, hii]
          · rw [if_neg hii]
            show (if h.slots.getD i 0 = h.slots.getD (h.slots.length - 1) 0 then (idx : Int)
                  else if h.slots.getD i 0 = h.slots.getD idx 0 then -1
                  else h.hidx (h.slots.getD i 0)) = (i : Int)
            have hne1 : h.slots.getD i 0 ≠ h.slots.getD (h.slots.length - 1) 0 := by
              intro hc
              have := hinv.1 i (by omega) (h.slots.length - 1) (by omega) hc
              omega
            have hne2 : h.slots.getD i 0 ≠ h.slots.getD idx 0 := by
              intro hc
              have := hinv.1 i (by omega) idx (by omega) hc
              omega
            rw [if_neg hne1, if_neg hne2]
            exact hinv.2 i (by omega)
      have hnotin2 : NotIn (h.slots.getD idx 0)
          ⟨(h.slots.set idx (h.slots.getD (h.slots.length - 1) 0)).dropLast,
            fun id => if id = h.slots.getD (h.slots.length - 1) 0 then (idx : Int)
                      else if id = h.slots.getD idx 0 then -1 else h.hidx id⟩ := by
        intro i hi hc
        rw [hlen3] at hi
        rw [hchar2 i hi] at hc
        by_cases hii : idx = i
        · rw [if_pos hii] at hc
          exact hremne hc.symm
        · rw [if_neg hii] at hc
          exact hii (hinv.1 idx hidxlt i (by omega) hc.symm)
      obtain ⟨hI, hL, hM⟩ := hDown_preserve sz h.slots.length _ idx hinv2
      refine ⟨hI, ?_, ?_, ?_⟩
      · intro hc
        exact absurd hc h1
      · intro _
        obtain ⟨_, he⟩ := hM (h.slots.getD idx 0) hnotin2
        rw [he]
        show (if h.slots.getD idx 0 = h.slots.getD (h.slots.length - 1) 0 then (idx : Int)
              else if h.slots.getD idx 0 = h.slots.getD idx 0 then -1 else _) = -1
        rw [if_neg hremne, if_pos rfl]
      · intro _ hc
        omega

/-- Example size function for the heap counterexample and witness:
node 7 has size 10, all others size 5. -/
def szEx : Nat → Nat := fun id => if id = 7 then 10 else 5

/-- Example heap state: nodes 7 (slot 0) and 9 (slot 1), with correct
recorded indices; a valid max-heap under `szEx`. -/
def hpEx : HeapSt := ⟨[7, 9], fun id => if id = 7 then 0 else if id = 9 then 1 else -1⟩

/-- **C7, counterexample.** Removing the last occupied slot of a two-element
heap (`heap_remove_idx` with `idx = used - 1 > 0`): the code first writes
`-1` into the removed node's index but then executes the move-last-into-hole
step on the *same* node, overwriting the sentinel with its old slot number.
The removed node 9 ends with recorded index 1, not the claimed `-1`. -/
theorem heap_remove_last_slot_counterexample :
    InvH hpEx
    ∧ szEx (hpEx.slots.getD 1 0) ≤ szEx (hpEx.slots.getD 0 0)
    ∧ (hpRemoveIdx szEx hpEx 1).hidx 9 = 1
    ∧ (1 : Int) ≠ -1 := by
  refine ⟨by decide, by decide, by decide, by decide⟩

/-- **C7, amended.** Every heap operation (insert, remove, sift up, sift
down) preserves the index bookkeeping invariant
`heap.array[b.heap_index] == b` (with pairwise-distinct occupants).  A
removed block's recorded index is set to the sentinel `-1` when the heap
had a single occupant or when the removed slot is not the last occupied
slot; but when the removed slot *is* the last occupied slot of a heap with
more than one occupant, the code overwrites the sentinel and the removed
block's recorded index remains its old slot number. -/
theorem heap_index_bookkeeping (sz : Nat → Nat) (h : HeapSt) (idx n fuel : Nat)
    (hinv : InvH h) :
    (idx < h.slots.length → InvH (hUp sz fuel h idx))
    ∧ InvH (hDown sz fuel h idx)
    ∧ (h.hidx n = -1 → InvH (hpInsert sz h n))
    ∧ (idx < h.slots.length →
        InvH (hpRemoveIdx sz h idx)
        ∧ (h.slots.length = 1 → (hpRemoveIdx sz h idx).hidx (h.slots.getD idx 0) = -1)
        ∧ (idx + 1 < h.slots.length →
            (hpRemoveIdx sz h idx).hidx (h.slots.getD idx 0) = -1)
        ∧ (1 < h.slots.length → idx + 1 = h.slots.length →
            (hpRemoveIdx sz h idx).hidx (h.slots.getD idx 0) = (idx : Int))) :=
  ⟨fun hlt => (hUp_preserve sz fuel h idx hinv hlt).1,
    (hDown_preserve sz fuel h idx hinv).1,
    fun hn => hpInsert_preserve sz h n hinv hn,
    fun hlt => hpRemoveIdx_spec sz h idx hinv hlt⟩

/-- Witness for the bookkeeping theorem on the concrete two-element heap,
sifting at index 0, inserting the fresh node 3, removing index 0. -/
theorem heap_index_bookkeeping_witness :
    (0 < hpEx.slots.length → InvH (hUp szEx 2 hpEx 0))
    ∧ InvH (hDown szEx 2 hpEx 0)
    ∧ (hpEx.hidx 3 = -1 → InvH (hpInsert szEx hpEx 3))
    ∧ (0 < hpEx.slots.length →
        InvH (hpRemoveIdx szEx hpEx 0)
        ∧ (hpEx.slots.length = 1 →
            (hpRemoveIdx szEx hpEx 0).hidx (hpEx.slots.getD 0 0) = -1)
        ∧ (0 + 1 < hpEx.slots.length →
            (hpRemoveIdx szEx hpEx 0).hidx (hpEx.slots.getD 0 0) = -1)
        ∧ (1 < hpEx.slots.length → 0 + 1 = hpEx.slots.length →
            (hpRemoveIdx szEx hpEx 0).hidx (hpEx.slots.getD 0 0) = (0 : Int))) :=
  heap_index_bookkeeping szEx hpEx 0 3 2 (by decide)

/-! ## Arena-level allocator state and the interposition shims

The state of one arena couples the address-ordered block list, the heap
array (as the list of the FREE blocks' start addresses in heap order; the C
code stores node pointers — under the bookkeeping invariant of
`heap_index_bookkeeping`, a node's `heap_idx` is exactly its position in
this array, which is how positions are located here), and the cumulative
used-bytes counter.  The shims below model the code in the `LOADED` state;
kernel calls (`mmap_tmpfile` and the `PROT_NONE` remap) are assumed to
succeed and are recorded as effects. -/

/-- Wrapping `size_t` multiplication (used for calloc's `count * size`). -/
def wmul (a b : Nat) : Nat := (a * b) % W

structure Arena where
  blocks : List Block
  heapPtrs : List Nat
  used : Nat
deriving Repr, DecidableEq

/-- Size of the block whose start address is `p` (node dereference). -/
def szOfB (blocks : List Block) (p : Nat) : Nat :=
  ((blocks.find? (fun b => b.ptr == p)).map Block.size).getD 0

/-- `SWAP_NODES` on the heap array of start addresses. -/
def swapA (arr : List Nat) (a b : Nat) : List Nat :=
  (arr.set a (arr.getD b 0)).set b (arr.getD a 0)

/-- `heapify_up` on the arena heap array. -/
def hUp2 (blocks : List Block) : Nat → List Nat → Nat → List Nat
  | 0, arr, _ => arr
  | fuel + 1, arr, idx =>
    if idx = 0 then arr
    else if szOfB blocks (arr.getD ((idx - 1) / 2) 0)
        < szOfB blocks (arr.getD idx 0) then
      hUp2 blocks fuel (swapA arr idx ((idx - 1) / 2)) ((idx - 1) / 2)
    else arr

/-- `largest_idx` after comparing with the left child. -/
def downLeft2 (blocks : List Block) (arr : List Nat) (idx : Nat) : Nat :=
  if 2 * idx + 1 < arr.length then
    (if szOfB blocks (arr.getD idx 0) > szOfB blocks (arr.getD (2 * idx + 1) 0) then idx
      else 2 * idx + 1)
  else idx

/-- `largest_idx` after comparing with both children. -/
def downTarget2 (blocks : List Block) (arr : List Nat) (idx : Nat) : Nat :=
  if 2 * idx + 2 < arr.length then
    (if szOfB blocks (arr.getD (downLeft2 blocks arr idx) 0)
        > szOfB blocks (arr.getD (2 * idx + 2) 0) then downLeft2 blocks arr idx
      else 2 * idx + 2)
  else downLeft2 blocks arr idx

/-- `heapify_down` on the arena heap array. -/
def hDown2 (blocks : List Block) : Nat → List Nat → Nat → List Nat
  | 0, arr, _ => arr
  | fuel + 1, arr, idx =>
    if downTarget2 blocks arr idx ≠ idx then
      hDown2 blocks fuel (swapA arr idx (downTarget2 blocks arr idx))
        (downTarget2 blocks arr idx)
    else arr

/-- `heap_remove_idx` on the arena heap array. -/
def hpRemove2 (blocks : List Block) (arr : List Nat) (idx : Nat) : List Nat :=
  if arr.length = 1 then []
  else hDown2 blocks arr.length
    ((arr.set idx (arr.getD (arr.length - 1) 0)).dropLast) idx

/-- `heap_insert` on the arena heap array. -/
def hpInsert2 (blocks : List Block) (arr : List Nat) (p : Nat) : List Nat :=
  hUp2 blocks (arr.length + 1) (arr ++ [p]) arr.length

/-- Position of the block starting at `p` in the address-ordered list. -/
def idxOfPtr (blocks : List Block) (p : Nat) : Nat :=
  blocks.findIdx (fun b => b.ptr == p)

/-- Position of the start address `p` in the heap array. -/
def idxOfA (arr : List Nat) (p : Nat) : Nat := arr.findIdx (fun q => q == p)

/-- Flip the block starting at `p` to IN_USE (`free_node->in_use = IN_USE`
in the exact-fit branch of `heap_pop_split`). -/
def markUsed (blocks : List Block) (p : Nat) : List Block :=
  blocks.map (fun b => if b.ptr == p then ⟨b.ptr, b.size, false⟩ else b)

/-- Split the block starting at `p` in the address-ordered list into an
IN_USE block of `s` bytes followed by the FREE remainder (the list surgery
of `heap_pop_split`, expressed through `splitStep`). -/
def splitAt2 (blocks : List Block) (p s : Nat) : List Block :=
  splitStep ((blocks.take (idxOfPtr blocks p)).reverse)
    (blocks.getD (idxOfPtr blocks p) dfl)
    (blocks.drop (idxOfPtr blocks p + 1)) s

/-- `heap_pop_split` (lines 334-384) at the arena level: select the node by
the root/children heuristic (`pickIdx`); on an exact fit remove it from the
heap and flip it IN_USE; otherwise split it, move the shrunken free node's
heap entry to its new start address and sift it down.  Returns the IN_USE
node handed to the caller. -/
def popSplit (a : Arena) (s : Nat) : Option Block × Arena :=
  match pickIdx (a.heapPtrs.map (szOfB a.blocks)) s with
  | none => (none, a)
  | some idx =>
    if szOfB a.blocks (a.heapPtrs.getD idx 0) = s then
      (some ⟨a.heapPtrs.getD idx 0, szOfB a.blocks (a.heapPtrs.getD idx 0), false⟩,
        ⟨markUsed a.blocks (a.heapPtrs.getD idx 0),
          hpRemove2 a.blocks a.heapPtrs idx, a.used⟩)
    else
      (some ⟨a.heapPtrs.getD idx 0, s, false⟩,
        ⟨splitAt2 a.blocks (a.heapPtrs.getD idx 0) s,
          hDown2 (splitAt2 a.blocks (a.heapPtrs.getD idx 0) s) a.heapPtrs.length
            (a.heapPtrs.set idx (a.heapPtrs.getD idx 0 + s)) idx,
          a.used⟩)

structure GSt where
  fries : Arena
  big : Arena
deriving Repr, DecidableEq

/-- Externally observable side effects of the shims. -/
inductive Eff where
  | memsetZero (ptr len : Nat)   -- explicit zeroing: memset(p, 0, count*size)
  | copyBytes (len : Nat)        -- memcpy performed by memblock_copy
  | sysAlloc (sz : Nat)          -- request handed to the real allocator
  | sysFree                      -- real_free of a system pointer
  | attach (ptr len : Nat)       -- mmap_tmpfile: install a file-backed mapping
  | detach (ptr len : Nat)       -- PROT_NONE remap when a bigmaac is freed
deriving Repr, DecidableEq

/-- `create_chunk` (lines 567-594): choose the arena by
`size > min_size_bigmaac`, round the size up to the arena's grain, add the
rounded size to the arena's used counter (before the pop, with no roll-back
on failure), then pop-split; a bigmaac additionally attaches a file-backed
mapping over the carved range. -/
def createChunk (cfg : Config) (g : GSt) (size : Nat) : Option Nat × GSt × List Eff :=
  if size > cfg.minBig then
    match popSplit ⟨g.big.blocks, g.big.heapPtrs,
        wadd g.big.used (roundTo size cfg.pageSize)⟩ (roundTo size cfg.pageSize) with
    | (none, a2) => (none, ⟨g.fries, a2⟩, [])
    | (some nb, a2) =>
      (some nb.ptr, ⟨g.fries, a2⟩, [.attach nb.ptr (roundTo size cfg.pageSize)])
  else
    match popSplit ⟨g.fries.blocks, g.fries.heapPtrs,
        wadd g.fries.used (roundTo size cfg.fryMult)⟩ (roundTo size cfg.fryMult) with
    | (none, a2) => (none, ⟨a2, g.big⟩, [])
    | (some nb, a2) => (some nb.ptr, ⟨a2, g.big⟩, [])

/-- Result of an allocation-returning shim. -/
inductive MRes where
  | sysPtr (size : Nat)   -- served by the real allocator
  | mng (p : Nat)         -- pointer into a managed arena
  | null                  -- NULL return
deriving Repr, DecidableEq

/-- The `malloc` shim (lines 649-668) in the `LOADED` state: result, new
state, whether `errno` was set to `ENOMEM`, effects. -/
def mallocShim (cfg : Config) (g : GSt) (size : Nat) : MRes × GSt × Bool × List Eff :=
  if size = 0 then (.sysPtr 0, g, false, [.sysAlloc 0])
  else if size > cfg.minFry then
    match createChunk cfg g size with
    | (none, g2, effs) => (.null, g2, true, effs)
    | (some p, g2, effs) => (.mng p, g2, false, effs)
  else (.sysPtr size, g, false, [.sysAlloc size])

/-- The `calloc` shim (lines 670-697) in the `LOADED` state: zero counts or
sizes delegate; arena requests are classified and sized by `size` alone,
and only a fry is explicitly zeroed — over `count * size` bytes. -/
def callocShim (cfg : Config) (g : GSt) (count size : Nat) : MRes × GSt × Bool × List Eff :=
  if count = 0 ∨ size = 0 then
    (.sysPtr (wmul count size), g, false, [.sysAlloc (wmul count size)])
  else if size > cfg.minFry then
    match createChunk cfg g size with
    | (none, g2, effs) => (.null, g2, true, effs)
    | (some p, g2, effs) =>
      if size ≤ cfg.minBig then
        (.mng p, g2, false, effs ++ [.memsetZero p (wmul count size)])
      else (.mng p, g2, false, effs)
  else (.sysPtr (wmul count size), g, false, [.sysAlloc (wmul count size)])

/-- `heap_find_node` (lines 386-396): pick the arena by address, walk the
address-ordered list for the block starting exactly at `p`. -/
def findNodeG (cfg : Config) (g : GSt) (p : Nat) : Option Block :=
  if p < cfg.baseBig then g.fries.blocks.find? (fun b => b.ptr == p)
  else g.big.blocks.find? (fun b => b.ptr == p)

/-- `heap_free_node` (lines 296-332) at the arena level, for the node at
list position `i`: coalesce with FREE neighbours, maintaining the heap
array (remove the absorbed previous node; re-key the grown survivor and
sift it up; or insert a newly freed node). -/
def freeAtArena (a : Arena) (i : Nat) : Arena :=
  if headFreeB (a.blocks.drop (i + 1)) then
    if headFreeB ((a.blocks.take i).reverse) then
      ⟨freeStep ((a.blocks.take i).reverse) (a.blocks.getD i dfl) (a.blocks.drop (i + 1)),
        hUp2
          (freeStep ((a.blocks.take i).reverse) (a.blocks.getD i dfl) (a.blocks.drop (i + 1)))
          a.heapPtrs.length
          ((hpRemove2 a.blocks a.heapPtrs
              (idxOfA a.heapPtrs (((a.blocks.take i).reverse).headD dfl).ptr)).set
            (idxOfA
              (hpRemove2 a.blocks a.heapPtrs
                (idxOfA a.heapPtrs (((a.blocks.take i).reverse).headD dfl).ptr))
              ((a.blocks.drop (i + 1)).headD dfl).ptr)
            (((a.blocks.take i).reverse).headD dfl).ptr)
          (idxOfA
            (hpRemove2 a.blocks a.heapPtrs
              (idxOfA a.heapPtrs (((a.blocks.take i).reverse).headD dfl).ptr))
            ((a.blocks.drop (i + 1)).headD dfl).ptr),
        a.used⟩
    else
      ⟨freeStep ((a.blocks.take i).reverse) (a.blocks.getD i dfl) (a.blocks.drop (i + 1)),
        hUp2
          (freeStep ((a.blocks.take i).reverse) (a.blocks.getD i dfl) (a.blocks.drop (i + 1)))
          a.heapPtrs.length
          (a.heapPtrs.set (idxOfA a.heapPtrs ((a.blocks.drop (i + 1)).headD dfl).ptr)
            (a.blocks.getD i dfl).ptr)
          (idxOfA a.heapPtrs ((a.blocks.drop (i + 1)).headD dfl).ptr),
        a.used⟩
  else if headFreeB ((a.blocks.take i).reverse) then
    ⟨freeStep ((a.blocks.take i).reverse) (a.blocks.getD i dfl) (a.blocks.drop (i + 1)),
      hUp2
        (freeStep ((a.blocks.take i).reverse) (a.blocks.getD i dfl) (a.blocks.drop (i + 1)))
        a.heapPtrs.length a.heapPtrs
        (idxOfA a.heapPtrs (((a.blocks.take i).reverse).headD dfl).ptr),
      a.used⟩
  else
    ⟨freeStep ((a.blocks.take i).reverse) (a.blocks.getD i dfl) (a.blocks.drop (i + 1)),
      hpInsert2
        (freeStep ((a.blocks.take i).reverse) (a.blocks.getD i dfl) (a.blocks.drop (i + 1)))
        a.heapPtrs (a.blocks.getD i dfl).ptr,
      a.used⟩

/-- `remove_chunk_with_ptr` (lines 607-645): look the pointer up; on a miss
log and report 0; otherwise copy into the new location when one was given
(`min(n->size, new_size)` bytes), detach and debit a bigmaac (or debit a
fry), coalesce the node, and report 1. -/
def removeChunk (cfg : Config) (g : GSt) (p : Nat) (newSize : Option Nat) :
    Int × GSt × List Eff :=
  match findNodeG cfg g p with
  | none => (0, g, [])
  | some n =>
    if p < cfg.baseBig then
      (1,
        ⟨freeAtArena ⟨g.fries.blocks, g.fries.heapPtrs, wsub g.fries.used n.size⟩
            (idxOfPtr g.fries.blocks p), g.big⟩,
        (match newSize with
          | some s2 => [.copyBytes (min n.size s2)]
          | none => []))
    else
      (1,
        ⟨g.fries,
          freeAtArena ⟨g.big.blocks, g.big.heapPtrs, wsub g.big.used n.size⟩
            (idxOfPtr g.big.blocks p)⟩,
        (match newSize with
          | some s2 => [.copyBytes (min n.size s2)]
          | none => []) ++ [.detach n.ptr n.size])

/-- The `free` shim (lines 777-793) in the `LOADED` state. -/
def freeShim (cfg : Config) (g : GSt) (p : Nat) : GSt × List Eff :=
  if p < cfg.baseFries ∨ cfg.endBig ≤ p then (g, [.sysFree])
  else
    match removeChunk cfg g p none with
    | (_, g2, effs) => (g2, effs)

/-- The `realloc` shim (lines 701-775) in the `LOADED` state.  `sysUsable`
models the platform's `malloc_usable_size` for system-owned pointers. -/
def reallocShim (cfg : Config) (sysUsable : Nat → Nat) (g : GSt)
    (p : Option Nat) (size : Nat) : MRes × GSt × Bool × List Eff :=
  match p with
  | none => mallocShim cfg g size
  | some ptr =>
    if size = 0 then mallocShim cfg g size
    else if cfg.baseFries ≤ ptr ∧ ptr < cfg.endBig then
      -- currently managed by BigMaac
      match findNodeG cfg g ptr with
      | none => (.null, g, false, [])
      | some n =>
        if size ≤ n.size then (.mng ptr, g, false, [])
        else if size > cfg.minFry then
          match createChunk cfg g size with
          | (none, g2, effs) => (.null, g2, true, effs)
          | (some q, g2, effs) =>
            match removeChunk cfg g2 ptr (some size) with
            | (r, g3, effs2) =>
              if r = 0 then (.null, g3, false, effs ++ effs2)
              else (.mng q, g3, false, effs ++ effs2)
        else
          match removeChunk cfg g ptr (some size) with
          | (r, g3, effs2) =>
            if r = 0 then (.null, g3, false, [.sysAlloc size] ++ effs2)
            else (.sysPtr size, g3, false, [.sysAlloc size] ++ effs2)
    else
      -- currently managed by the system allocator
      if size > cfg.minFry then
        match createChunk cfg g size with
        | (none, g2, effs) => (.null, g2, true, effs)
        | (some q, g2, effs) =>
          (.mng q, g2, false, effs ++ [.copyBytes (min (sysUsable ptr) size), .sysFree])
      else (.sysPtr size, g, false, [.sysAlloc size])

/-- Initial fry arena under `cfg0`: one FREE block covering `[2^20, 2^21)`. -/
def fry0 : Arena := ⟨[⟨1048576, 1048576, true⟩], [1048576], 0⟩

/-- Initial bigmaac arena under `cfg0`, with `SIZE_BIGMAAC = 1 MiB`:
one FREE block covering `[2^21, 3 * 2^20)`. -/
def big0 : Arena := ⟨[⟨2097152, 1048576, true⟩], [2097152], 0⟩

/-- Freshly initialised allocator state under `cfg0`. -/
def g0 : GSt := ⟨fry0, big0⟩

/-- **C1.** (code bug) `calloc(2, 8192)` under `cfg0` carves a fry of only
`roundTo 8192 = 8192` bytes — the request is classified and sized by `size`
alone — yet the shim memsets `count * size = 16384` bytes, writing past the
allocation; and `calloc(2, 70000)` carves a bigmaac of only 73728 bytes
(`roundTo 70000` to a page) with no explicit zeroing, so the
claimed `count * size = 140000` zeroed bytes are not covered in either
class. -/
theorem calloc_undersized_allocation :
    (callocShim cfg0 g0 2 8192).1 = .mng 1048576
    ∧ findNodeG cfg0 (callocShim cfg0 g0 2 8192).2.1 1048576
        = some ⟨1048576, 8192, false⟩
    ∧ (callocShim cfg0 g0 2 8192).2.2.2 = [.memsetZero 1048576 16384]
    ∧ 8192 < 2 * 8192
    ∧ (callocShim cfg0 g0 2 70000).1 = .mng 2097152
    ∧ findNodeG cfg0 (callocShim cfg0 g0 2 70000).2.1 2097152
        = some ⟨2097152, 73728, false⟩
    ∧ (callocShim cfg0 g0 2 70000).2.2.2 = [.attach 2097152 73728]
    ∧ 73728 < 2 * 70000 := by
  decide

/-- **C2.** (code bug) With a 1 MiB bigmaac arena, `malloc(2 MiB)` returns
NULL and sets ENOMEM, and the blocks and size-heap are untouched — but
`create_chunk` adds the rounded size to `used_bigmaacs` *before*
`heap_pop_split` and never rolls it back, so the arena's used-bytes counter
changes from 0 to 2 MiB on the failure path. -/
theorem malloc_oom_used_leak :
    (mallocShim cfg0 g0 2097152).1 = .null
    ∧ (mallocShim cfg0 g0 2097152).2.2.1 = true
    ∧ (mallocShim cfg0 g0 2097152).2.1.big.blocks = g0.big.blocks
    ∧ (mallocShim cfg0 g0 2097152).2.1.big.heapPtrs = g0.big.heapPtrs
    ∧ (mallocShim cfg0 g0 2097152).2.1.fries = g0.fries
    ∧ (mallocShim cfg0 g0 2097152).2.1.big.used = 2097152
    ∧ g0.big.used = 0 := by
  decide

/-- **C3.** (code bug) After `p = malloc(8192)` and a first `free(p)`, the
fry arena is back to its initial state (one coalesced FREE block starting
at `p`).  A second `free(p)` then *finds that FREE block* — `heap_find_node`
does not check the in-use state — so instead of being logged and ignored it
debits `used_fries` again (a `size_t` underflow by the whole coalesced
size) and inserts the already-free block into the size-heap a second time. -/
theorem double_free_corrupts_state :
    (freeShim cfg0 (mallocShim cfg0 g0 8192).2.1 1048576).1 = g0
    ∧ (freeShim cfg0 g0 1048576).1.fries.used = W - 1048576
    ∧ (freeShim cfg0 g0 1048576).1.fries.heapPtrs = [1048576, 1048576]
    ∧ (freeShim cfg0 g0 1048576).1 ≠ g0 := by
  decide

/-- Shared lemma: a managed pointer whose block already holds the requested
(positive) size makes `realloc` return the pointer itself with no state
change and no effects. -/
theorem realloc_fits_aux (cfg : Config) (su : Nat → Nat) (g : GSt)
    (p s : Nat) (n : Block)
    (hs : 0 < s)
    (hrange : cfg.baseFries ≤ p ∧ p < cfg.endBig)
    (hfind : findNodeG cfg g p = some n)
    (hsz : s ≤ n.size) :
    reallocShim cfg su g (some p) s = (.mng p, g, false, []) := by
  simp only [reallocShim]
  rw [if_neg (by omega : ¬ s = 0), if_pos hrange]
  simp only [hfind]
  rw [if_pos hsz]

/-- **C8, counterexample.** For a managed block at `2^20` of size 8192 — in
particular large enough for a request of 0 bytes — `realloc(p, 0)` does not
return `p`: the `size == 0` path falls through to `malloc(0)`, which is
served by the real allocator. -/
theorem realloc_zero_not_identity :
    findNodeG cfg0 (mallocShim cfg0 g0 8192).2.1 1048576
      = some ⟨1048576, 8192, false⟩
    ∧ (reallocShim cfg0 (fun _ => 0) (mallocShim cfg0 g0 8192).2.1 (some 1048576) 0).1
        = .sysPtr 0
    ∧ MRes.sysPtr 0 ≠ .mng 1048576 := by
  decide

/-- **C8, amended.** For every managed pointer `p` whose block is large
enough for the requested size `s ≥ 1`, `realloc(p, s)` returns `p` itself,
with no change to either arena's state, no errno, and no side effects.
(The `s = 0` request instead follows the `malloc(0)` path.) -/
theorem realloc_big_enough_identity (cfg : Config) (su : Nat → Nat) (g : GSt)
    (p s : Nat) (n : Block)
    (hs : 0 < s)
    (hrange : cfg.baseFries ≤ p ∧ p < cfg.endBig)
    (hfind : findNodeG cfg g p = some n)
    (hsz : s ≤ n.size) :
    reallocShim cfg su g (some p) s = (.mng p, g, false, []) :=
  realloc_fits_aux cfg su g p s n hs hrange hfind hsz

/-- Witness: realloc of the managed 8192-byte block down to 4096 bytes
returns the pointer unchanged. -/
theorem realloc_big_enough_identity_witness :
    reallocShim cfg0 (fun _ => 0) (mallocShim cfg0 g0 8192).2.1 (some 1048576) 4096
      = (.mng 1048576, (mallocShim cfg0 g0 8192).2.1, false, []) :=
  realloc_big_enough_identity cfg0 (fun _ => 0) (mallocShim cfg0 g0 8192).2.1
    1048576 4096 ⟨1048576, 8192, false⟩ (by decide) (by decide) (by decide) (by decide)

/-- **C10.** The block handed out by `heap_pop_split` has exactly the
rounded size requested from it (both on an exact fit and on a split), and
for every managed pointer whose block has rounded-up size
`B = roundTo r m`, every request `0 < s ≤ B` makes `realloc` return the
pointer itself with no allocation, no copy and no free — even when `s`
strictly exceeds the originally requested `r`, because the comparison is
against the block's rounded size `n.size`, not the caller's original
request. -/
theorem realloc_rounded_size_identity (cfg : Config) (su : Nat → Nat) (g : GSt)
    (p r s m : Nat) (n : Block) :
    (∀ (a : Arena) (s2 : Nat) (nb : Block) (a2 : Arena),
        popSplit a s2 = (some nb, a2) → nb.size = s2 ∧ nb.free = false)
    ∧ (n.size = roundTo r m → 0 < s → s ≤ n.size →
        cfg.baseFries ≤ p → p < cfg.endBig → findNodeG cfg g p = some n →
        reallocShim cfg su g (some p) s = (.mng p, g, false, [])) := by
  constructor
  · intro a s2 nb a2 hpop
    unfold popSplit at hpop
    cases hpick : pickIdx (a.heapPtrs.map (szOfB a.blocks)) s2 with
    | none =>
      rw [hpick] at hpop
      simp at hpop
    | some idx =>
      rw [hpick] at hpop
      dsimp only at hpop
      by_cases hx : szOfB a.blocks (a.heapPtrs.getD idx 0) = s2
      · rw [if_pos hx] at hpop
        simp only [Prod.mk.injEq, Option.some.injEq] at hpop
        rw [← hpop.1]
        exact ⟨hx, rfl⟩
      · rw [if_neg hx] at hpop
        simp only [Prod.mk.injEq, Option.some.injEq] at hpop
        rw [← hpop.1]
        exact ⟨rfl, rfl⟩
  · intro _ hs hsz h1 h2 hfind
    exact realloc_fits_aux cfg su g p s n hs ⟨h1, h2⟩ hfind hsz

/-- Witness: the fry request `r = 5000` produces a block of rounded size
`roundTo 5000 4096 = 8192`; the grow request `s = 6000 > r` still returns
the same pointer with no effects. -/
theorem realloc_rounded_size_identity_witness :
    reallocShim cfg0 (fun _ => 0) (mallocShim cfg0 g0 5000).2.1 (some 1048576) 6000
      = (.mng 1048576, (mallocShim cfg0 g0 5000).2.1, false, []) :=
  (realloc_rounded_size_identity cfg0 (fun _ => 0) (mallocShim cfg0 g0 5000).2.1
      1048576 5000 6000 cfg0.fryMult ⟨1048576, 8192, false⟩).2
    (by decide) (by decide) (by decide) (by decide) (by decide) (by decide)

end Bigmaac
